import Mathlib

/-
Verification of the data pipeline of src/appandrew.py (BESS construction
table viewer): column normalization, row annotation (safe_str, row_flag),
source-link rendering and spreadsheet loading.  Strings are modelled on
`List Char` / `String` with helpers mirroring the Python string methods
(for the ASCII inputs all claims are about); a pandas DataFrame is an
ordered list of labelled columns, labels possibly duplicated, as pandas
allows.
-/

/-- ASCII whitespace as Python's `str.strip` and `\s` see it. -/
def isPySpace (c : Char) : Bool :=
  c = ' ' || c = '\t' || c = '\n' || c = '\r' || c = '\x0b' || c = '\x0c'

/-- Python `str.strip()` on a character list. -/
def stripChars (l : List Char) : List Char :=
  ((l.dropWhile isPySpace).reverse.dropWhile isPySpace).reverse

/-- Python `str.strip()`. -/
def pyStrip (s : String) : String := String.mk (stripChars s.data)

/-- Python `str.lower()`. -/
def pyLower (s : String) : String := String.mk (s.data.map Char.toLower)

/-- A Python dict built from a sequence of key/value pairs (later pairs
overwrite earlier ones), then `.get k`: the value of the last pair with
key `k`, if any. -/
def lookupLast {α : Type} (l : List (String × α)) (k : String) : Option α :=
  (l.reverse.find? (fun p => p.1 = k)).map (fun p => p.2)

/-- Cell values of the spreadsheet: the duck-typed values `safe_str` (lines
71-76) dispatches on — `None`, a float NaN, a string, or another value
rendered by `str` (represented by its exemplar, an integer). -/
inductive Cell where
  | null : Cell
  | nan : Cell
  | str : String → Cell
  | int : Int → Cell
deriving DecidableEq

/-- appandrew.py lines 71-76, `safe_str`. -/
def safe_str : Cell → String
  | Cell.null => ""
  | Cell.nan => ""
  | Cell.str s => s
  | Cell.int n => toString n

/-- appandrew.py lines 13-22, `COLUMNS`: the eight expected columns. -/
def COLUMNS : List String :=
  ["Project Name", "Company", "MW", "Location", "Connection date",
   "Comments", "Sources", "PNG Name"]

/-- appandrew.py lines 26-59, `FLAGS` (in source order; all keys distinct). -/
def FLAGS : List (String × String) :=
  [("Sambar Power", "g"),
   ("Bradford West 100MW", "r"),
   ("Bicker Fen 2 Solar", "r"),
   ("Didcot Energy Park", "r"),
   ("Berkswell Energy Storage", ""),
   ("WELBAR ENERGY STORAGE", "g"),
   ("Cellarhead 400kV Energy Storage", "r"),
   ("Worset Lane Energy Hub", "r"),
   ("Sundon Battery Energy Storage", "g"),
   ("Capenhurst BESS", "g"),
   ("Legacy", ""),
   ("Monk Fryston", "g"),
   ("Whitegate", "r"),
   ("Iron Acton", "g"),
   ("Cryogenic Battery System (Synchronous)", "g"),
   ("Norwich battery storage", ""),
   ("Bolney Green Energy Hub", "r"),
   ("Flash Solar Farm (Staythorpe)", "g"),
   ("Rushett Lane BESS", "r"),
   ("Bramley co-located bess and solar", ""),
   ("Fairglen BESS", "r"),
   ("Goldborough Road BESS", ""),
   ("Fleet EGH (Tertiary) Coxmoor Wood BESS", "r"),
   ("WORSET LANE BESS", "r"),
   ("Keithick Estate, California Farm solar and battery storage", "r"),
   ("Pembroke BESS", ""),
   ("Eggborough CCGT - OCGT - BESS", "r"),
   ("Neilston 400kV Greener Grid Park", "g"),
   ("Coylton 275kV Greener Grid Park", "g"),
   ("Sizing John (Rainhill)", "g"),
   ("Harker Green Energy Centre", ""),
   ("Zenobe Blackhillock 300 MW", "g")]

/-- appandrew.py lines 63-65, `normalize_flag`. -/
def normalize_flag (x : String) : String :=
  if pyLower (pyStrip x) = "g" || pyLower (pyStrip x) = "r" then
    pyLower (pyStrip x)
  else ""

/-- appandrew.py lines 67-69, `row_flag`. -/
def row_flag (project_name : String) : String :=
  normalize_flag ((lookupLast FLAGS (pyStrip project_name)).getD "")

/-- The character class `[^\s,]` of `URL_RE` (line 61). -/
def isUrlBodyChar (c : Char) : Bool := !(isPySpace c) && !(c = ',')

/-- One `re.IGNORECASE` letter comparison. -/
def lowEq (c d : Char) : Bool := c.toLower = d

/-- Match `https?://` (IGNORECASE) at the head of the list; on success return
the matched scheme characters (original casing) and the remainder.  As the
regex engine does, the greedy branch taking `s` is tried first, then the
branch without it. -/
def matchScheme (l : List Char) : Option (List Char × List Char) :=
  match l with
  | c1 :: c2 :: c3 :: c4 :: c5 :: c6 :: c7 :: rest =>
    if lowEq c1 'h' && lowEq c2 't' && lowEq c3 't' && lowEq c4 'p' then
      match rest with
      | c8 :: rest2 =>
        if lowEq c5 's' && c6 = ':' && c7 = '/' && c8 = '/' then
          some ([c1, c2, c3, c4, c5, c6, c7, c8], rest2)
        else if c5 = ':' && c6 = '/' && c7 = '/' then
          some ([c1, c2, c3, c4, c5, c6, c7], c8 :: rest2)
        else none
      | [] =>
        if c5 = ':' && c6 = '/' && c7 = '/' then
          some ([c1, c2, c3, c4, c5, c6, c7], [])
        else none
    else none
  | _ => none

/-- One match attempt of `URL_RE` at the current position: the scheme, then
the greedy `[^\s,]+` (at least one character, else the position fails). -/
def tryMatchUrl (l : List Char) : Option (List Char × List Char) :=
  match matchScheme l with
  | none => none
  | some (scheme, rest) =>
    if (rest.takeWhile isUrlBodyChar).isEmpty then none
    else some (scheme ++ rest.takeWhile isUrlBodyChar, rest.dropWhile isUrlBodyChar)

/-- `URL_RE.findall`: leftmost, non-overlapping matches; scanning resumes
after each match.  Fuel is the remaining length: every step consumes at least
one character, so `l.length` fuel always suffices (when the fuel hits 0 the
list is already empty). -/
def findUrlsF : Nat → List Char → List (List Char)
  | 0, _ => []
  | _ + 1, [] => []
  | fuel + 1, c :: rest =>
    match tryMatchUrl (c :: rest) with
    | some (url, after) => url :: findUrlsF fuel after
    | none => findUrlsF fuel rest

/-- `URL_RE.findall` on a character list. -/
def findUrls (l : List Char) : List (List Char) := findUrlsF l.length l

/-- Python `str.replace(pat, rep)` (all occurrences, scanning left to right
without overlap).  Fuel is the input length: each step consumes at least one
character when `pat` is nonempty, and at the call sites `pat` is a regex
match of at least 8 characters. -/
def replaceAllF : Nat → List Char → List Char → List Char → List Char
  | 0, s, _, _ => s
  | _ + 1, [], _, _ => []
  | fuel + 1, c :: rest, pat, rep =>
    if !pat.isEmpty && pat.isPrefixOf (c :: rest) then
      rep ++ replaceAllF fuel ((c :: rest).drop pat.length) pat rep
    else
      c :: replaceAllF fuel rest pat rep

/-- Python `str.replace` on character lists. -/
def replaceAll (s pat rep : List Char) : List Char := replaceAllF s.length s pat rep

/-- The markdown self link `[u](u)` built at line 98. -/
def linkify (u : List Char) : List Char :=
  '[' :: (u ++ ']' :: '(' :: (u ++ [')']))

/-- One rendered item of `render_sources`: either the em-dash written for an
empty Sources field (line 87), or one `st.markdown` bullet (we record the
text after the `- ` bullet marker). -/
inductive SourceOut where
  | noSources : SourceOut
  | bullet : String → SourceOut
deriving DecidableEq

/-- `re.split(r"[;\n]", t)` (line 89): split at every single `;` or newline,
keeping empty pieces. -/
def splitSemiNl : List Char → List (List Char)
  | [] => [[]]
  | c :: rest =>
    if c = ';' || c = '\n' then [] :: splitSemiNl rest
    else
      match splitSemiNl rest with
      | [] => [[c]]
      | h :: t => (c :: h) :: t

/-- The body of the `for part in parts` loop (lines 94-101) applied to a
fragment already stripped and found nonempty. -/
def renderFragment (part : List Char) : SourceOut :=
  if (findUrls part).isEmpty then SourceOut.bullet (String.mk part)
  else
    SourceOut.bullet
      (String.mk ((findUrls part).foldl (fun md u => replaceAll md u (linkify u)) part))

/-- appandrew.py lines 84-101, `render_sources`; the list records the writes
to the page in order.  The loop emits one bullet per fragment that is
nonempty after stripping and silently skips the rest, hence `filterMap`. -/
def render_sources (text : String) : List SourceOut :=
  if (stripChars text.data).isEmpty then [SourceOut.noSources]
  else
    (splitSemiNl (stripChars text.data)).filterMap (fun part =>
      if (stripChars part).isEmpty then none
      else some (renderFragment (stripChars part)))

/-- A pandas DataFrame for the purposes of `normalize_columns`: an ordered
list of labelled columns (labels possibly duplicated, as pandas allows) over
an index of `nrows` rows. -/
structure DataFrame where
  nrows : Nat
  cols : List (String × List Cell)
deriving DecidableEq

/-- Line 105: `df.columns = [str(c).strip() for c in df.columns]`. -/
def strippedCols (df : DataFrame) : List (String × List Cell) :=
  df.cols.map (fun p => (pyStrip p.1, p.2))

/-- Line 107: `actual_lower = {c.lower(): c for c in df.columns}` — a dict,
so for duplicate lowered names the last column wins (`lookupLast`). -/
def actualLower (df : DataFrame) : List (String × String) :=
  (strippedCols df).map (fun p => (pyLower p.1, p.1))

/-- Lines 108-112: the `rename` dict.  The loop puts in one entry per
expected name found in `actual_lower`; `actual_lower` is fixed before the
loop, so the entries are independent of the loop's appends and the dict
equals this `filterMap` (entries for distinct expected names get distinct
keys, see `renameMap_key_det` below). -/
def renameMap (df : DataFrame) : List (String × String) :=
  COLUMNS.filterMap (fun e =>
    (lookupLast (actualLower df) (pyLower e)).map (fun a => (a, e)))

/-- Lines 109-114, else branch: `df[expected] = ""` for each expected name
not matched, appended in COLUMNS order before the rename, broadcasting `""`
down the new column. -/
def appendedCols (df : DataFrame) : List (String × List Cell) :=
  (COLUMNS.filter (fun e => (lookupLast (actualLower df) (pyLower e)).isNone)).map
    (fun e => (e, List.replicate df.nrows (Cell.str "")))

/-- Line 116: `df = df.rename(columns=rename)` applied to the frame as it
stands after the first loop (stripped original columns plus appended ones);
pandas maps every column label through the dict. -/
def renamedCols (df : DataFrame) : List (String × List Cell) :=
  (strippedCols df ++ appendedCols df).map
    (fun p => ((lookupLast (renameMap df) p.1).getD p.1, p.2))

/-- Lines 117-119: `for c in COLUMNS: if c not in df.columns: df[c] = ""`.
COLUMNS has no duplicates, so the membership test against the growing frame
equals the test against the frame before this loop. -/
def filledCols (df : DataFrame) : List (String × List Cell) :=
  renamedCols df ++
    (COLUMNS.filter (fun e => !((renamedCols df).map (fun p => p.1)).contains e)).map
      (fun e => (e, List.replicate df.nrows (Cell.str "")))

/-- appandrew.py lines 103-121, `normalize_columns`.  Line 121 `df[COLUMNS]`
selects, for each label of COLUMNS in order, every column carrying that
label (pandas keeps duplicated labels). -/
def normalize_columns (df : DataFrame) : DataFrame :=
  ⟨df.nrows, COLUMNS.flatMap (fun e => (filledCols df).filter (fun p => p.1 = e))⟩

/-- The raw columns whose stripped name matches the expected name `e` up to
letter case. -/
def matchesExpected (df : DataFrame) (e : String) : List (String × List Cell) :=
  (strippedCols df).filter (fun p => pyLower p.1 = pyLower e)

/-- The failure taxonomy of `load_df` (lines 123-128). -/
inductive LoadError where
  | sourceNotFound : LoadError
  | parseFailure : String → LoadError
deriving DecidableEq

/-- appandrew.py lines 123-128, `load_df`.  The filesystem together with the
native spreadsheet reader is abstracted as `fs`: `fs path = none` when
`os.path.exists path` is false; otherwise `fs path` is the outcome of
`pd.read_excel path` — a native parse error carried verbatim, or the raw
frame. -/
def load_df (fs : String → Option (Except String DataFrame)) (path : String) :
    Except LoadError DataFrame :=
  match fs path with
  | none => Except.error LoadError.sourceNotFound
  | some (Except.error e) => Except.error (LoadError.parseFailure e)
  | some (Except.ok raw) => Except.ok (normalize_columns raw)

/-
Theorems.
-/

/-- C6: `safe_str` is total on cell values, sending `None` and a float NaN to
the empty string and every other value to its text representation. -/
theorem safe_str_total :
    safe_str Cell.null = "" ∧ safe_str Cell.nan = "" ∧
    (∀ s : String, safe_str (Cell.str s) = s) ∧
    (∀ n : Int, safe_str (Cell.int n) = toString n) :=
  ⟨rfl, rfl, fun _ => rfl, fun _ => rfl⟩

/-- C3: `row_flag` trims the project name, looks it up exactly in FLAGS,
lower-cases the stored value and accepts only the literals "g" and "r"; an
absent key, a present-but-empty value or any unrecognized value gives "";
in particular for "  Sambar Power  ", "Unknown Project" and
"Berkswell Energy Storage". -/
theorem row_flag_spec (s : String) :
    row_flag "  Sambar Power  " = "g" ∧
    row_flag "Unknown Project" = "" ∧
    row_flag "Berkswell Energy Storage" = "" ∧
    (lookupLast FLAGS (pyStrip s) = none → row_flag s = "") ∧
    (∀ v, lookupLast FLAGS (pyStrip s) = some v →
      row_flag s =
        if pyLower (pyStrip v) = "g" then "g"
        else if pyLower (pyStrip v) = "r" then "r"
        else "") := by
  refine ⟨by decide, by decide, by decide, ?_, ?_⟩
  · intro h
    simp only [row_flag, h, Option.getD_none]
    decide
  · intro v h
    simp only [row_flag, h, Option.getD_some, normalize_flag]
    by_cases hg : pyLower (pyStrip v) = "g"
    · simp [hg]
    · by_cases hr : pyLower (pyStrip v) = "r"
      · simp [hg, hr]
      · simp [hg, hr]

/-- C3 witness: the theorem applied at "  Sambar Power  ", whose trimmed name
is present in FLAGS with value "g". -/
theorem row_flag_spec_witness : row_flag "  Sambar Power  " = "g" := by
  have h := (row_flag_spec "  Sambar Power  ").2.2.2.2 "g" (by decide)
  simpa using h

/-- C7: loading fails with `sourceNotFound` exactly when the path does not
exist; an existing but malformed file fails with the native parse error,
unwrapped; an existing well-formed file is parsed and normalized. -/
theorem load_df_spec (fs : String → Option (Except String DataFrame)) (path : String) :
    (load_df fs path = Except.error LoadError.sourceNotFound ↔ fs path = none) ∧
    (∀ e, fs path = some (Except.error e) →
      load_df fs path = Except.error (LoadError.parseFailure e)) ∧
    (∀ raw, fs path = some (Except.ok raw) →
      load_df fs path = Except.ok (normalize_columns raw)) := by
  refine ⟨⟨fun h => ?_, fun h => by simp [load_df, h]⟩,
    fun e h => by simp [load_df, h], fun raw h => by simp [load_df, h]⟩
  cases hf : fs path with
  | none => rfl
  | some r =>
    cases r with
    | error e => simp [load_df, hf] at h
    | ok raw => simp [load_df, hf] at h

/-- C7 witness: the theorem applied to a concrete filesystem in which the
parser fails with "bad sheet" at path "p". -/
theorem load_df_spec_witness :
    load_df (fun _ => some (Except.error "bad sheet")) "p" =
      Except.error (LoadError.parseFailure "bad sheet") :=
  (load_df_spec (fun _ => some (Except.error "bad sheet")) "p").2.1 "bad sheet" rfl

/-- C2 counterexample: in "http://x http://x" the same URL occurs twice; the
output is not the fragment with each occurrence wrapped once as a self link
and the rest verbatim. -/
theorem render_sources_repeated_url_counterexample :
    render_sources "http://x http://x" ≠
      [SourceOut.bullet "[http://x](http://x) [http://x](http://x)"] := by
  decide

theorem replaceAllF_no_occurrence (pat rep : List Char) :
    ∀ (fuel : Nat) (s : List Char), ¬ pat <:+: s → replaceAllF fuel s pat rep = s := by
  intro fuel
  induction fuel with
  | zero => intro s h; rfl
  | succ fuel ih =>
    intro s h
    cases s with
    | nil => rfl
    | cons c rest =>
      have hpre : pat.isPrefixOf (c :: rest) = false := by
        cases hb : pat.isPrefixOf (c :: rest)
        · rfl
        · exfalso
          have hp := List.isPrefixOf_iff_prefix.mp hb
          obtain ⟨t2, ht⟩ := hp
          exact h ⟨[], t2, by simpa using ht⟩
      rw [replaceAllF, hpre, Bool.and_false, if_neg (by simp)]
      congr 1
      apply ih
      intro hinf
      obtain ⟨s1, t1, h1⟩ := hinf
      exact h ⟨c :: s1, t1, by simp [h1]⟩

theorem replaceAll_no_occurrence (md u rep : List Char) (h : ¬ u <:+: md) :
    replaceAll md u rep = md :=
  replaceAllF_no_occurrence u rep md.length md h

/-- C2 amended: when the same URL literal occurs more than once in a
fragment, `findall` lists it once per occurrence and the rewriting applies,
for each listed entry in order, one replace-all substitution of that URL by
the single replacement string `[u](u)` over the already-substituted text; a
pass whose URL no longer occurs in the current text leaves it unchanged
(proved in general below).  The final fragment is therefore not in general
the original text with each occurrence wrapped once as a self link: in
"http://x http://x" the second pass rewrites the markup the first pass
inserted and both occurrences end up in nested double link markup, while in
"http://x http://x/a http://x/a" the twice-listed literal http://x/a is
never wrapped at all — the pass for http://x already rewrote its prefix, so
both of its own passes find no occurrence and change nothing. -/
theorem render_sources_repeated_url_passes :
    (∀ md u rep : List Char, ¬ u <:+: md → replaceAll md u rep = md) ∧
    findUrls "http://x http://x".data = ["http://x".data, "http://x".data] ∧
    render_sources "http://x http://x" =
      [SourceOut.bullet
        "[[http://x](http://x)]([http://x](http://x)) [[http://x](http://x)]([http://x](http://x))"] ∧
    findUrls "http://x http://x/a http://x/a".data =
      ["http://x".data, "http://x/a".data, "http://x/a".data] ∧
    render_sources "http://x http://x/a http://x/a" =
      [SourceOut.bullet
        "[http://x](http://x) [http://x](http://x)/a [http://x](http://x)/a"] :=
  ⟨replaceAll_no_occurrence, by decide, by decide, by decide, by decide⟩

/-- C2 witness: the no-occurrence part of the theorem applied concretely —
the pass for "http://x/a" over the already-substituted text of the third
exemplar fragment changes nothing. -/
theorem render_sources_repeated_url_passes_witness :
    replaceAll "[http://x](http://x) [http://x](http://x)/a [http://x](http://x)/a".data
        "http://x/a".data (linkify "http://x/a".data) =
      "[http://x](http://x) [http://x](http://x)/a [http://x](http://x)/a".data :=
  render_sources_repeated_url_passes.1
    "[http://x](http://x) [http://x](http://x)/a [http://x](http://x)/a".data
    "http://x/a".data (linkify "http://x/a".data) (by decide)

/-- C4 counterexample: a fragment in which the same URL is detected twice is
not emitted with each URL occurrence wrapped once and the rest unchanged. -/
theorem render_sources_wrap_counterexample :
    render_sources "see http://d.com and http://d.com" ≠
      [SourceOut.bullet "see [http://d.com](http://d.com) and [http://d.com](http://d.com)"] := by
  decide

/-- C1 counterexample: the raw columns "MW" and "MW " both match the expected
field "MW" after stripping, pandas keeps both, and the canonical table has
nine columns, not the eight expected fields. -/
theorem normalize_columns_duplicate_label_counterexample :
    (normalize_columns ⟨1, [("MW", [Cell.str "a"]), ("MW ", [Cell.str "b"])]⟩).cols.map
        (fun p => p.1) =
      ["Project Name", "Company", "MW", "MW", "Location", "Connection date",
       "Comments", "Sources", "PNG Name"] ∧
    (normalize_columns ⟨1, [("MW", [Cell.str "a"]), ("MW ", [Cell.str "b"])]⟩).cols.map
        (fun p => p.1) ≠ COLUMNS := by
  constructor
  · decide
  · decide

/-- C5 counterexample: in a table with raw columns "Mw" and "mW", both match
the expected field "MW" up to case, but only the later one wins the
`actual_lower` dict; the values of "Mw" do not become the output values of
"MW" — they are dropped. -/
theorem normalize_columns_match_counterexample :
    pyLower (pyStrip "Mw") = pyLower "MW" ∧
    (normalize_columns ⟨1, [("Mw", [Cell.str "a"]), ("mW", [Cell.str "b"])]⟩).cols =
      [("Project Name", [Cell.str ""]), ("Company", [Cell.str ""]),
       ("MW", [Cell.str "b"]), ("Location", [Cell.str ""]),
       ("Connection date", [Cell.str ""]), ("Comments", [Cell.str ""]),
       ("Sources", [Cell.str ""]), ("PNG Name", [Cell.str ""])] := by
  constructor
  · decide
  · decide

/- URL-scheme matching facts. -/

theorem matchScheme_lower (t : List Char) :
    matchScheme ('h' :: 't' :: 't' :: 'p' :: 's' :: ':' :: '/' :: '/' :: t) =
      some (['h', 't', 't', 'p', 's', ':', '/', '/'], t) := rfl

theorem matchScheme_lower_http (t : List Char) :
    matchScheme ('h' :: 't' :: 't' :: 'p' :: ':' :: '/' :: '/' :: t) =
      some (['h', 't', 't', 'p', ':', '/', '/'], t) := by
  cases t with
  | nil => rfl
  | cons c8 t2 => rfl

theorem matchScheme_any_https (c1 c2 c3 c4 c5 : Char) (t : List Char)
    (h1 : c1.toLower = 'h') (h2 : c2.toLower = 't') (h3 : c3.toLower = 't')
    (h4 : c4.toLower = 'p') (h5 : c5.toLower = 's') :
    matchScheme (c1 :: c2 :: c3 :: c4 :: c5 :: ':' :: '/' :: '/' :: t) =
      some ([c1, c2, c3, c4, c5, ':', '/', '/'], t) := by
  simp [matchScheme, lowEq, h1, h2, h3, h4, h5]

theorem matchScheme_any_http (c1 c2 c3 c4 : Char) (t : List Char)
    (h1 : c1.toLower = 'h') (h2 : c2.toLower = 't') (h3 : c3.toLower = 't')
    (h4 : c4.toLower = 'p') :
    matchScheme (c1 :: c2 :: c3 :: c4 :: ':' :: '/' :: '/' :: t) =
      some ([c1, c2, c3, c4, ':', '/', '/'], t) := by
  cases t with
  | nil => simp [matchScheme, lowEq, h1, h2, h3, h4]
  | cons c8 t2 => simp [matchScheme, lowEq, h1, h2, h3, h4]

/-- C10: URL detection is case-insensitive on the scheme — for every letter
casing of `https://` or of `http://`, a match attempt at that scheme succeeds
exactly when the attempt at the all-lowercase scheme does, matching the same
body and remainder (only the scheme casing of the matched text differs); an
upper-case and a mixed-case URL are wrapped exactly like a lowercase one. -/
theorem url_scheme_case_insensitive :
    (∀ c1 c2 c3 c4 c5 : Char, ∀ t : List Char,
      c1.toLower = 'h' → c2.toLower = 't' → c3.toLower = 't' → c4.toLower = 'p' →
      c5.toLower = 's' →
      tryMatchUrl (c1 :: c2 :: c3 :: c4 :: c5 :: ':' :: '/' :: '/' :: t) =
        (tryMatchUrl ('h' :: 't' :: 't' :: 'p' :: 's' :: ':' :: '/' :: '/' :: t)).map
          (fun p => (c1 :: c2 :: c3 :: c4 :: c5 :: ':' :: '/' :: '/' :: p.1.drop 8, p.2))) ∧
    (∀ c1 c2 c3 c4 : Char, ∀ t : List Char,
      c1.toLower = 'h' → c2.toLower = 't' → c3.toLower = 't' → c4.toLower = 'p' →
      tryMatchUrl (c1 :: c2 :: c3 :: c4 :: ':' :: '/' :: '/' :: t) =
        (tryMatchUrl ('h' :: 't' :: 't' :: 'p' :: ':' :: '/' :: '/' :: t)).map
          (fun p => (c1 :: c2 :: c3 :: c4 :: ':' :: '/' :: '/' :: p.1.drop 7, p.2))) ∧
    render_sources "HTTPS://EXAMPLE.COM" =
      [SourceOut.bullet "[HTTPS://EXAMPLE.COM](HTTPS://EXAMPLE.COM)"] ∧
    render_sources "see HtTp://An.Example now" =
      [SourceOut.bullet "see [HtTp://An.Example](HtTp://An.Example) now"] := by
  refine ⟨?_, ?_, by decide, by decide⟩
  · intro c1 c2 c3 c4 c5 t h1 h2 h3 h4 h5
    rw [tryMatchUrl, tryMatchUrl, matchScheme_any_https c1 c2 c3 c4 c5 t h1 h2 h3 h4 h5,
      matchScheme_lower]
    cases hb : (t.takeWhile isUrlBodyChar).isEmpty
    · simp [hb]
    · simp [hb]
  · intro c1 c2 c3 c4 t h1 h2 h3 h4
    rw [tryMatchUrl, tryMatchUrl, matchScheme_any_http c1 c2 c3 c4 t h1 h2 h3 h4,
      matchScheme_lower_http]
    cases hb : (t.takeWhile isUrlBodyChar).isEmpty
    · simp [hb]
    · simp [hb]

/-- C10 witness: the https part of the theorem applied to the all-uppercase
scheme followed by "x". -/
theorem url_scheme_case_insensitive_witness :
    tryMatchUrl ('H' :: 'T' :: 'T' :: 'P' :: 'S' :: ':' :: '/' :: '/' :: ['x']) =
      (tryMatchUrl ('h' :: 't' :: 't' :: 'p' :: 's' :: ':' :: '/' :: '/' :: ['x'])).map
        (fun p => ('H' :: 'T' :: 'T' :: 'P' :: 'S' :: ':' :: '/' :: '/' :: p.1.drop 8, p.2)) :=
  url_scheme_case_insensitive.1 'H' 'T' 'T' 'P' 'S' ['x']
    (by decide) (by decide) (by decide) (by decide) (by decide)

/- Facts about stripping and splitting, for the render_sources theorems. -/

theorem mem_of_mem_dropWhile {α : Type} (p : α → Bool) :
    ∀ (l : List α) (a : α), a ∈ l.dropWhile p → a ∈ l := by
  intro l a h
  exact (List.dropWhile_sublist p).mem h

theorem mem_of_mem_stripChars (l : List Char) (c : Char) (h : c ∈ stripChars l) : c ∈ l := by
  unfold stripChars at h
  rw [List.mem_reverse] at h
  have h2 := mem_of_mem_dropWhile _ _ _ h
  rw [List.mem_reverse] at h2
  exact mem_of_mem_dropWhile _ _ _ h2

theorem stripChars_eq_nil (l : List Char) (h : ∀ c ∈ l, isPySpace c) :
    stripChars l = [] := by
  unfold stripChars
  have h1 : l.dropWhile isPySpace = [] := List.dropWhile_eq_nil_iff.mpr h
  simp [h1]

theorem splitSemiNl_parts (l : List Char) :
    ∀ p ∈ splitSemiNl l, ∀ c ∈ p, c ∈ l ∧ c ≠ ';' ∧ c ≠ '\n' := by
  induction l with
  | nil =>
    intro p hp c hc
    simp [splitSemiNl] at hp
    subst hp
    simp at hc
  | cons d rest ih =>
    intro p hp c hc
    by_cases hd : d = ';' || d = '\n'
    · rw [splitSemiNl, if_pos hd] at hp
      rcases List.mem_cons.mp hp with h1 | h1
      · subst h1; simp at hc
      · have := ih p h1 c hc
        exact ⟨List.mem_cons_of_mem _ this.1, this.2.1, this.2.2⟩
    · rw [splitSemiNl, if_neg hd] at hp
      simp only [Bool.or_eq_true, decide_eq_true_eq, not_or] at hd
      cases hsp : splitSemiNl rest with
      | nil =>
        rw [hsp] at hp
        simp at hp
        subst hp
        simp at hc
        subst hc
        exact ⟨List.mem_cons_self _ _, hd.1, hd.2⟩
      | cons h t =>
        rw [hsp] at hp
        rcases List.mem_cons.mp hp with h1 | h1
        · subst h1
          rcases List.mem_cons.mp hc with h2 | h2
          · subst h2
            exact ⟨List.mem_cons_self _ _, hd.1, hd.2⟩
          · have := ih h (by rw [hsp]; exact List.mem_cons_self _ _) c h2
            exact ⟨List.mem_cons_of_mem _ this.1, this.2.1, this.2.2⟩
        · have := ih p (by rw [hsp]; exact List.mem_cons_of_mem _ h1) c hc
          exact ⟨List.mem_cons_of_mem _ this.1, this.2.1, this.2.2⟩

/-- C9: a Sources string that is nonempty after stripping but consists only
of semicolons, newlines and whitespace renders as nothing at all — no
fragment and no sentinel. -/
theorem render_sources_only_delims_empty (s : String)
    (h1 : stripChars s.data ≠ [])
    (h2 : ∀ c ∈ s.data, c = ';' ∨ c = '\n' ∨ isPySpace c) :
    render_sources s = [] := by
  rw [render_sources, if_neg (by simpa using h1)]
  rw [List.filterMap_eq_nil_iff]
  intro part hpart
  have hempty : stripChars part = [] := by
    apply stripChars_eq_nil
    intro c hc
    have hmem := splitSemiNl_parts _ part hpart c hc
    have hins : c ∈ s.data := mem_of_mem_stripChars _ _ hmem.1
    rcases h2 c hins with h | h | h
    · exact absurd h hmem.2.1
    · exact absurd h hmem.2.2
    · exact h
  simp [hempty]

/-- C9 witness: the theorem applied at " ; ". -/
theorem render_sources_only_delims_empty_witness : render_sources " ; " = [] := by
  have h := render_sources_only_delims_empty " ; " (by decide) (by decide)
  exact h

theorem filterMap_strip_filter (L : List (List Char)) :
    (L.filterMap (fun part =>
        if (stripChars part).isEmpty then none
        else some (renderFragment (stripChars part)))) =
      ((L.map stripChars).filter (fun p => !p.isEmpty)).map renderFragment := by
  induction L with
  | nil => rfl
  | cons a L ih =>
    by_cases h : stripChars a = []
    · simpa [h] using ih
    · simpa [h] using ih

/-- C4 amended: `render_sources` strips the input and yields exactly the
sentinel when the result is empty; otherwise it splits at every semicolon and
newline, drops fragments empty after stripping, and emits the rest in order,
each fragment rewritten by one replace-all pass per detected URL (which wraps
each URL once whenever no detected URL repeats or overlaps another
occurrence); a fragment without URLs is emitted verbatim; the spec's
two-fragment example renders with both URLs hyperlinked and inline text
preserved. -/
theorem render_sources_pipeline (s : String) :
    (stripChars s.data = [] → render_sources s = [SourceOut.noSources]) ∧
    (stripChars s.data ≠ [] →
      render_sources s =
        (((splitSemiNl (stripChars s.data)).map stripChars).filter
            (fun p => !p.isEmpty)).map renderFragment) ∧
    (∀ part : List Char, findUrls part = [] →
      renderFragment part = SourceOut.bullet (String.mk part)) ∧
    render_sources "" = [SourceOut.noSources] ∧
    render_sources "see https://example.com/a, https://example.com/b; also note" =
      [SourceOut.bullet
        "see [https://example.com/a](https://example.com/a), [https://example.com/b](https://example.com/b)",
       SourceOut.bullet "also note"] := by
  refine ⟨?_, ?_, ?_, by decide, by decide⟩
  · intro h
    rw [render_sources, if_pos (by simp [h])]
  · intro h
    rw [render_sources, if_neg (by simpa using h)]
    exact filterMap_strip_filter _
  · intro part h
    rw [renderFragment, if_pos (by simp [h])]

/-- C4 witness: the pipeline part of the theorem applied at " x ; ". -/
theorem render_sources_pipeline_witness : render_sources " x ; " = [SourceOut.bullet "x"] := by
  have h := (render_sources_pipeline " x ; ").2.1 (by decide)
  rw [h]
  decide

/- Dict-lookup facts, for the normalize_columns theorems. -/

theorem lookupLast_eq_none_iff {α : Type} (l : List (String × α)) (k : String) :
    lookupLast l k = none ↔ ∀ p ∈ l, p.1 ≠ k := by
  unfold lookupLast
  simp [List.find?_eq_none]

theorem lookupLast_eq_some_mem {α : Type} {l : List (String × α)} {k : String} {v : α}
    (h : lookupLast l k = some v) : (k, v) ∈ l := by
  unfold lookupLast at h
  rw [Option.map_eq_some'] at h
  obtain ⟨p, hf, hv⟩ := h
  obtain ⟨a, b⟩ := p
  have hp := List.find?_some hf
  have hm := List.mem_of_find?_eq_some hf
  rw [List.mem_reverse] at hm
  have ha : a = k := by simpa using hp
  have hb : b = v := hv
  subst ha
  subst hb
  exact hm

theorem lookupLast_eq_some_of_unique {α : Type} {l : List (String × α)} {k : String} {v : α}
    (hmem : (k, v) ∈ l) (huniq : ∀ w, (k, w) ∈ l → w = v) :
    lookupLast l k = some v := by
  unfold lookupLast
  cases hf : l.reverse.find? (fun p => p.1 = k) with
  | none =>
    exfalso
    rw [List.find?_eq_none] at hf
    have h2 := hf (k, v) (List.mem_reverse.mpr hmem)
    simp at h2
  | some p =>
    obtain ⟨a, b⟩ := p
    have hp := List.find?_some hf
    have hm := List.mem_of_find?_eq_some hf
    rw [List.mem_reverse] at hm
    have ha : a = k := by simpa using hp
    subst ha
    have hb : b = v := huniq b hm
    subst hb
    rfl

theorem find?_eq_head_filter {α : Type} (p : α → Bool) (l : List α) :
    l.find? p = (l.filter p).head? := by
  induction l with
  | nil => rfl
  | cons a l ih =>
    by_cases h : p a
    · rw [List.find?_cons_of_pos _ h, List.filter_cons_of_pos h]
      rfl
    · rw [List.find?_cons_of_neg _ h, List.filter_cons_of_neg h]
      exact ih

theorem filter_reverse_comm {α : Type} (p : α → Bool) (l : List α) :
    l.reverse.filter p = (l.filter p).reverse := by
  induction l with
  | nil => rfl
  | cons a l ih =>
    by_cases h : p a <;> simp [List.filter_append, h, ih]

theorem lookupLast_lowmap_core (T : List (String × List Cell)) (k : String) :
    ((T.map (fun p => (pyLower p.1, p.1))).find? (fun q => q.1 = k)).map (fun q => q.2) =
      ((T.filter (fun p => pyLower p.1 = k)).head?).map (fun p => p.1) := by
  induction T with
  | nil => rfl
  | cons p T ih =>
    by_cases h : pyLower p.1 = k
    · rw [List.map_cons,
        List.find?_cons_of_pos _ (by simpa using h),
        List.filter_cons_of_pos (by simpa using h)]
      rfl
    · rw [List.map_cons,
        List.find?_cons_of_neg _ (by simpa using h),
        List.filter_cons_of_neg (by simpa using h)]
      exact ih

theorem lookupLast_lowmap (S : List (String × List Cell)) (k : String) :
    lookupLast (S.map (fun p => (pyLower p.1, p.1))) k =
      ((S.filter (fun p => pyLower p.1 = k)).getLast?).map (fun p => p.1) := by
  unfold lookupLast
  rw [← List.map_reverse, lookupLast_lowmap_core, filter_reverse_comm, List.head?_reverse]

theorem lookupA_eq_none_iff (df : DataFrame) (e : String) :
    lookupLast (actualLower df) (pyLower e) = none ↔ matchesExpected df e = [] := by
  unfold actualLower matchesExpected
  rw [lookupLast_lowmap]
  simp [List.getLast?_eq_none_iff]

theorem lookupA_some (df : DataFrame) {k : String} {a : String}
    (h : lookupLast (actualLower df) k = some a) :
    ∃ p ∈ strippedCols df, p.1 = a ∧ pyLower a = k := by
  unfold actualLower at h
  rw [lookupLast_lowmap] at h
  rw [Option.map_eq_some'] at h
  obtain ⟨p, hl, hp1⟩ := h
  have hmem : p ∈ (strippedCols df).filter (fun p => pyLower p.1 = k) :=
    List.mem_of_mem_getLast? (Option.mem_def.mpr hl)
  have h1 := List.mem_filter.mp hmem
  refine ⟨p, h1.1, hp1, ?_⟩
  rw [← hp1]
  simpa using h1.2

theorem lookupA_of_singleton (df : DataFrame) {e : String} {c : String × List Cell}
    (h : matchesExpected df e = [c]) :
    lookupLast (actualLower df) (pyLower e) = some c.1 := by
  unfold actualLower
  rw [lookupLast_lowmap]
  unfold matchesExpected at h
  rw [h]
  rfl

theorem COLUMNS_nodup : COLUMNS.Nodup := by decide

theorem COLUMNS_lower_inj :
    ∀ e1 ∈ COLUMNS, ∀ e2 ∈ COLUMNS, pyLower e1 = pyLower e2 → e1 = e2 := by decide

theorem COLUMNS_strip_fixed : ∀ n ∈ COLUMNS, pyStrip n = n := by decide

theorem mem_renameMap_iff (df : DataFrame) {a e : String} :
    (a, e) ∈ renameMap df ↔
      e ∈ COLUMNS ∧ lookupLast (actualLower df) (pyLower e) = some a := by
  unfold renameMap
  rw [List.mem_filterMap]
  constructor
  · rintro ⟨x, hx, hfx⟩
    rw [Option.map_eq_some'] at hfx
    obtain ⟨b, hb, hbe⟩ := hfx
    have h1 : b = a := congrArg Prod.fst hbe
    have h2 : x = e := congrArg Prod.snd hbe
    subst h1
    subst h2
    exact ⟨hx, hb⟩
  · rintro ⟨he, hl⟩
    exact ⟨e, he, by rw [hl]; rfl⟩

theorem renameMap_key_det (df : DataFrame) {a e1 e2 : String}
    (h1 : (a, e1) ∈ renameMap df) (h2 : (a, e2) ∈ renameMap df) : e1 = e2 := by
  obtain ⟨he1, hl1⟩ := (mem_renameMap_iff df).mp h1
  obtain ⟨he2, hl2⟩ := (mem_renameMap_iff df).mp h2
  obtain ⟨_, _, _, hlow1⟩ := lookupA_some df hl1
  obtain ⟨_, _, _, hlow2⟩ := lookupA_some df hl2
  exact COLUMNS_lower_inj e1 he1 e2 he2 (by rw [← hlow1, ← hlow2])

theorem lookupLast_renameMap (df : DataFrame) {a e : String} (h : (a, e) ∈ renameMap df) :
    lookupLast (renameMap df) a = some e :=
  lookupLast_eq_some_of_unique h (fun _ hw => renameMap_key_det df hw h)

theorem appended_never_renamed (df : DataFrame) {x : String}
    (hx : lookupLast (actualLower df) (pyLower x) = none) :
    lookupLast (renameMap df) x = none := by
  rw [lookupLast_eq_none_iff]
  rintro ⟨a, v⟩ hav he
  simp only at he
  subst he
  obtain ⟨_, hl⟩ := (mem_renameMap_iff df).mp hav
  obtain ⟨p, hp, hpx, hplow⟩ := lookupA_some df hl
  have hmem : p ∈ matchesExpected df a := by
    unfold matchesExpected
    exact List.mem_filter.mpr ⟨hp, by simp [hpx]⟩
  rw [lookupA_eq_none_iff] at hx
  rw [hx] at hmem
  simp at hmem

theorem mapped_filter_singleton {α : Type} (K : List String) (hK : K.Nodup)
    (g : String → α) (pr : String → Bool) (e : String) (heK : e ∈ K) (hpr : pr e = true) :
    ((K.filter pr).map (fun x => (x, g x))).filter (fun p => p.1 = e) = [(e, g e)] := by
  induction K with
  | nil => cases heK
  | cons a K ih =>
    obtain ⟨ha, hK2⟩ := List.nodup_cons.mp hK
    rcases List.mem_cons.mp heK with h | heK2
    · subst h
      rw [List.filter_cons_of_pos hpr, List.map_cons, List.filter_cons_of_pos (by simp)]
      congr 1
      rw [List.filter_eq_nil_iff]
      rintro ⟨x, y⟩ hxy
      obtain ⟨x2, hx2, heq⟩ := List.mem_map.mp hxy
      have hx3 : x2 ∈ K := List.mem_of_mem_filter hx2
      have hx4 : x2 = x := congrArg Prod.fst heq
      subst hx4
      simp only [decide_eq_true_eq]
      intro hxe
      exact ha (hxe ▸ hx3)
    · have hae : a ≠ e := fun h => ha (h ▸ heK2)
      by_cases hpa : pr a
      · rw [List.filter_cons_of_pos hpa, List.map_cons,
          List.filter_cons_of_neg (by simp [hae])]
        exact ih hK2 heK2
      · rw [List.filter_cons_of_neg hpa]
        exact ih hK2 heK2

theorem mapped_filter_nil {α : Type} (K : List String) (g : String → α) (pr : String → Bool)
    (e : String) (h : ∀ x ∈ K, pr x = true → x ≠ e) :
    ((K.filter pr).map (fun x => (x, g x))).filter (fun p => p.1 = e) = [] := by
  rw [List.filter_eq_nil_iff]
  rintro ⟨x, y⟩ hxy
  obtain ⟨x2, hx2, heq⟩ := List.mem_map.mp hxy
  have h1 := List.mem_filter.mp hx2
  have hx4 : x2 = x := congrArg Prod.fst heq
  subst hx4
  simp only [decide_eq_true_eq]
  exact h x2 h1.1 h1.2

theorem mem_appendedCols (df : DataFrame) {q : String × List Cell} (hq : q ∈ appendedCols df) :
    lookupLast (actualLower df) (pyLower q.1) = none ∧
      q.2 = List.replicate df.nrows (Cell.str "") := by
  unfold appendedCols at hq
  obtain ⟨x, hx, heq⟩ := List.mem_map.mp hq
  have h1 := List.mem_filter.mp hx
  subst heq
  exact ⟨by simpa [Option.isNone_iff_eq_none] using h1.2, rfl⟩

theorem renamedCols_filter_missing (df : DataFrame) {e : String} (he : e ∈ COLUMNS)
    (h : matchesExpected df e = []) :
    (renamedCols df).filter (fun p => p.1 = e) =
      [(e, List.replicate df.nrows (Cell.str ""))] := by
  have hA : lookupLast (actualLower df) (pyLower e) = none :=
    (lookupA_eq_none_iff df e).mpr h
  unfold renamedCols
  rw [List.filter_map, List.filter_append, List.map_append]
  have hS : (strippedCols df).filter
      ((fun p => p.1 = e) ∘ fun p => ((lookupLast (renameMap df) p.1).getD p.1, p.2)) = [] := by
    rw [List.filter_eq_nil_iff]
    intro q hq
    simp only [Function.comp_apply, decide_eq_true_eq]
    intro hqe
    cases hl : lookupLast (renameMap df) q.1 with
    | none =>
      rw [hl, Option.getD_none] at hqe
      have hmem : q ∈ matchesExpected df e := by
        unfold matchesExpected
        exact List.mem_filter.mpr ⟨hq, by simp [hqe]⟩
      rw [h] at hmem
      simp at hmem
    | some v =>
      rw [hl, Option.getD_some] at hqe
      subst hqe
      have := (mem_renameMap_iff df).mp (lookupLast_eq_some_mem hl)
      rw [this.2] at hA
      simp at hA
  have hPcong : (appendedCols df).filter
      ((fun p => p.1 = e) ∘ fun p => ((lookupLast (renameMap df) p.1).getD p.1, p.2)) =
      (appendedCols df).filter (fun p => p.1 = e) := by
    apply List.filter_congr
    intro q hq
    have hq1 := (mem_appendedCols df hq).1
    simp only [Function.comp_apply]
    rw [appended_never_renamed df hq1, Option.getD_none]
  have hP : (appendedCols df).filter (fun p => p.1 = e) =
      [(e, List.replicate df.nrows (Cell.str ""))] := by
    unfold appendedCols
    exact mapped_filter_singleton COLUMNS COLUMNS_nodup _ _ e he (by simp [hA])
  rw [hS, hPcong, hP]
  simp only [List.map_nil, List.map_cons, List.nil_append]
  rw [appended_never_renamed df hA, Option.getD_none]

theorem renamedCols_filter_unique (df : DataFrame) {e : String} {c : String × List Cell}
    (he : e ∈ COLUMNS) (h : matchesExpected df e = [c]) :
    (renamedCols df).filter (fun p => p.1 = e) = [(e, c.2)] := by
  have hA : lookupLast (actualLower df) (pyLower e) = some c.1 := lookupA_of_singleton df h
  have hR : (c.1, e) ∈ renameMap df := (mem_renameMap_iff df).mpr ⟨he, hA⟩
  have hRl : lookupLast (renameMap df) c.1 = some e := lookupLast_renameMap df hR
  have hclow : pyLower c.1 = pyLower e := by
    have hmem : c ∈ matchesExpected df e := by
      rw [h]
      exact List.mem_cons_self _ _
    unfold matchesExpected at hmem
    simpa using (List.mem_filter.mp hmem).2
  unfold renamedCols
  rw [List.filter_map, List.filter_append, List.map_append]
  have hS : (strippedCols df).filter
      ((fun p => p.1 = e) ∘ fun p => ((lookupLast (renameMap df) p.1).getD p.1, p.2)) = [c] := by
    have hcong : (strippedCols df).filter
        ((fun p => p.1 = e) ∘ fun p => ((lookupLast (renameMap df) p.1).getD p.1, p.2)) =
        (strippedCols df).filter (fun p => pyLower p.1 = pyLower e) := by
      apply List.filter_congr
      intro q hq
      simp only [Function.comp_apply]
      rw [decide_eq_decide]
      show ((lookupLast (renameMap df) q.1).getD q.1 = e) ↔ (pyLower q.1 = pyLower e)
      constructor
      · intro hqe
        cases hl : lookupLast (renameMap df) q.1 with
        | none =>
          rw [hl, Option.getD_none] at hqe
          rw [hqe]
        | some v =>
          rw [hl, Option.getD_some] at hqe
          subst hqe
          have h2 := (mem_renameMap_iff df).mp (lookupLast_eq_some_mem hl)
          have hq1 : q.1 = c.1 := by
            rw [h2.2] at hA
            exact Option.some.inj hA
          rw [hq1, hclow]
      · intro hqlow
        have hmem : q ∈ matchesExpected df e := by
          unfold matchesExpected
          exact List.mem_filter.mpr ⟨hq, by simp [hqlow]⟩
        rw [h] at hmem
        have hqc : q = c := by simpa using hmem
        rw [hqc, hRl, Option.getD_some]
    rw [hcong]
    exact h
  have hP : (appendedCols df).filter
      ((fun p => p.1 = e) ∘ fun p => ((lookupLast (renameMap df) p.1).getD p.1, p.2)) = [] := by
    rw [List.filter_eq_nil_iff]
    intro q hq
    have hq1 := (mem_appendedCols df hq).1
    simp only [Function.comp_apply, decide_eq_true_eq]
    rw [appended_never_renamed df hq1, Option.getD_none]
    intro hqe
    rw [hqe] at hq1
    rw [hq1] at hA
    simp at hA
  rw [hS, hP]
  simp only [List.map_nil, List.map_cons, List.append_nil]
  rw [hRl, Option.getD_some]

theorem filledCols_filter_of_renamed (df : DataFrame) {e : String}
    {x : String × List Cell}
    (h : (renamedCols df).filter (fun p => p.1 = e) = [x]) :
    (filledCols df).filter (fun p => p.1 = e) = [x] := by
  have hx : x ∈ (renamedCols df).filter (fun p => p.1 = e) := by
    rw [h]
    exact List.mem_cons_self _ _
  have hx2 := List.mem_filter.mp hx
  have hce : e ∈ (renamedCols df).map (fun p => p.1) :=
    List.mem_map.mpr ⟨x, hx2.1, by simpa using hx2.2⟩
  unfold filledCols
  rw [List.filter_append, h]
  have h2 : ((COLUMNS.filter
      (fun e2 => !((renamedCols df).map (fun p => p.1)).contains e2)).map
        (fun e2 => (e2, List.replicate df.nrows (Cell.str "")))).filter
      (fun p => p.1 = e) = [] := by
    apply mapped_filter_nil
    intro y hy hpy hye
    subst hye
    rw [Bool.not_eq_eq_eq_not, Bool.not_true] at hpy
    simp at hpy
    obtain ⟨p, hp, hp1⟩ := List.mem_map.mp hce
    exact hpy p.2 (by rw [← hp1]; exact hp)
  rw [h2, List.append_nil]

theorem flatMap_filter_group {α : Type} (K : List String) (hK : K.Nodup)
    (F : String → List (String × α)) (hF : ∀ k, ∀ p ∈ F k, p.1 = k)
    {e : String} (he : e ∈ K) :
    (K.flatMap F).filter (fun p => p.1 = e) = F e := by
  induction K with
  | nil => cases he
  | cons a K ih =>
    obtain ⟨ha, hK2⟩ := List.nodup_cons.mp hK
    rw [List.flatMap_cons, List.filter_append]
    rcases List.mem_cons.mp he with h | heK2
    · subst h
      have h1 : (F e).filter (fun p => p.1 = e) = F e :=
        List.filter_eq_self.mpr (fun p hp => by simp [hF e p hp])
      have h2 : (K.flatMap F).filter (fun p => p.1 = e) = [] := by
        rw [List.filter_eq_nil_iff]
        intro p hp
        obtain ⟨k, hk, hpk⟩ := List.mem_flatMap.mp hp
        have := hF k p hpk
        simp only [decide_eq_true_eq]
        rw [this]
        exact fun hke => ha (hke ▸ hk)
      rw [h1, h2, List.append_nil]
    · have hae : a ≠ e := fun h2 => ha (h2 ▸ heK2)
      have h1 : (F a).filter (fun p => p.1 = e) = [] := by
        rw [List.filter_eq_nil_iff]
        intro p hp
        have := hF a p hp
        simp only [decide_eq_true_eq]
        rw [this]
        exact hae
      rw [h1, List.nil_append]
      exact ih hK2 heK2

theorem flatMap_names {α : Type} (K : List String) (F : String → List (String × α))
    (hsing : ∀ k ∈ K, ∃ v, F k = [(k, v)]) :
    (K.flatMap F).map (fun p => p.1) = K := by
  induction K with
  | nil => rfl
  | cons a K ih =>
    obtain ⟨v, hv⟩ := hsing a (List.mem_cons_self _ _)
    rw [List.flatMap_cons, List.map_append, hv]
    simp only [List.map_cons, List.map_nil]
    rw [ih (fun k hk => hsing k (List.mem_cons_of_mem _ hk))]
    rfl

theorem filledCols_filter_of_bounded (df : DataFrame) {e : String} (he : e ∈ COLUMNS)
    (hle : (matchesExpected df e).length ≤ 1) :
    ∃ v, (filledCols df).filter (fun p => p.1 = e) = [(e, v)] ∧
      (matchesExpected df e = [] → v = List.replicate df.nrows (Cell.str "")) := by
  cases hm : matchesExpected df e with
  | nil =>
    exact ⟨_, filledCols_filter_of_renamed df (renamedCols_filter_missing df he hm),
      fun _ => rfl⟩
  | cons c rest =>
    rw [hm] at hle
    simp only [List.length_cons] at hle
    have h0 : rest.length = 0 := by omega
    have hr : rest = [] := List.length_eq_zero.mp h0
    subst hr
    refine ⟨c.2, filledCols_filter_of_renamed df (renamedCols_filter_unique df he hm), ?_⟩
    intro hc
    simp at hc

theorem filter_names_filled (df : DataFrame) :
    ∀ k, ∀ p ∈ (filledCols df).filter (fun q => q.1 = k), p.1 = k := by
  intro k p hp
  simpa using (List.mem_filter.mp hp).2

/-- C1 amended: provided at most one raw column matches each expected field
(after stripping, up to case), the canonical table's columns are exactly the
eight expected fields in order; every expected field with no matching raw
column is a column of empty strings, one per row; every other raw column is
dropped. -/
theorem normalize_columns_canonical_shape (df : DataFrame)
    (h : ∀ e ∈ COLUMNS, (matchesExpected df e).length ≤ 1) :
    (normalize_columns df).cols.map (fun p => p.1) = COLUMNS ∧
    (∀ e ∈ COLUMNS, matchesExpected df e = [] →
      (normalize_columns df).cols.filter (fun p => p.1 = e) =
        [(e, List.replicate df.nrows (Cell.str ""))]) := by
  constructor
  · show (COLUMNS.flatMap (fun e => (filledCols df).filter (fun p => p.1 = e))).map
        (fun p => p.1) = COLUMNS
    apply flatMap_names
    intro k hk
    obtain ⟨v, hv, _⟩ := filledCols_filter_of_bounded df hk (h k hk)
    exact ⟨v, hv⟩
  · intro e he hm
    show (COLUMNS.flatMap (fun e2 => (filledCols df).filter (fun p => p.1 = e2))).filter
        (fun p => p.1 = e) = _
    rw [flatMap_filter_group COLUMNS COLUMNS_nodup _ (filter_names_filled df) he]
    obtain ⟨v, hv, hv2⟩ := filledCols_filter_of_bounded df he (h e he)
    rw [hv, hv2 hm]

/-- C1 witness: the spec's own end-to-end example, a two-row table carrying
only "project name", plus an unexpected column. -/
theorem normalize_columns_canonical_shape_witness :
    (normalize_columns
        (DataFrame.mk 2 [("project name", [Cell.str "p", Cell.str "q"]),
          ("junk", [Cell.int 1, Cell.int 2])])).cols.map (fun p => p.1) = COLUMNS ∧
    (normalize_columns
        (DataFrame.mk 2 [("project name", [Cell.str "p", Cell.str "q"]),
          ("junk", [Cell.int 1, Cell.int 2])])).cols.filter (fun p => p.1 = "MW") =
      [("MW", List.replicate 2 (Cell.str ""))] := by
  have h := normalize_columns_canonical_shape
    (DataFrame.mk 2 [("project name", [Cell.str "p", Cell.str "q"]),
      ("junk", [Cell.int 1, Cell.int 2])]) (by decide)
  exact ⟨h.1, h.2 "MW" (by decide) (by decide)⟩

/-- C5 amended: when exactly one raw column matches the expected field `e`
(after stripping the raw name, up to case), that column's values become the
output values of `e`. -/
theorem normalize_columns_unique_match (df : DataFrame) {e : String}
    {c : String × List Cell} (he : e ∈ COLUMNS) (h : matchesExpected df e = [c]) :
    (normalize_columns df).cols.filter (fun p => p.1 = e) = [(e, c.2)] := by
  show (COLUMNS.flatMap (fun e2 => (filledCols df).filter (fun p => p.1 = e2))).filter
      (fun p => p.1 = e) = _
  rw [flatMap_filter_group COLUMNS COLUMNS_nodup _ (filter_names_filled df) he]
  exact filledCols_filter_of_renamed df (renamedCols_filter_unique df he h)

/-- C5 witness: the raw column "mw " uniquely matches "MW"; its values appear
as the MW column of the output. -/
theorem normalize_columns_unique_match_witness :
    (normalize_columns (DataFrame.mk 1 [("mw ", [Cell.str "5"])])).cols.filter
        (fun p => p.1 = "MW") = [("MW", [Cell.str "5"])] := by
  have h := @normalize_columns_unique_match (DataFrame.mk 1 [("mw ", [Cell.str "5"])])
    "MW" ("mw", [Cell.str "5"]) (by decide) (by decide)
  exact h

theorem filterMap_eq_map_of_all {α β : Type} (K : List α) (f : α → Option β) (g : α → β)
    (h : ∀ e ∈ K, f e = some (g e)) : K.filterMap f = K.map g := by
  induction K with
  | nil => rfl
  | cons a K ih =>
    rw [List.filterMap_cons, h a (List.mem_cons_self _ _), List.map_cons,
      ih (fun e he => h e (List.mem_cons_of_mem _ he))]

theorem flatMap_congr_left {α β : Type} (K : List α) (f g : α → List β)
    (h : ∀ a ∈ K, f a = g a) : K.flatMap f = K.flatMap g := by
  induction K with
  | nil => rfl
  | cons a K ih =>
    rw [List.flatMap_cons, List.flatMap_cons, h a (List.mem_cons_self _ _),
      ih (fun x hx => h x (List.mem_cons_of_mem _ hx))]

theorem normalize_cols_names (df : DataFrame) :
    ∀ p ∈ (normalize_columns df).cols, p.1 ∈ COLUMNS := by
  intro p hp
  have hp2 : p ∈ COLUMNS.flatMap (fun e => (filledCols df).filter (fun q => q.1 = e)) := hp
  obtain ⟨e, he, hpe⟩ := List.mem_flatMap.mp hp2
  have h1 : p.1 = e := by simpa using (List.mem_filter.mp hpe).2
  rw [h1]
  exact he

theorem filledCols_complete (df : DataFrame) {e : String} (he : e ∈ COLUMNS) :
    ∃ p ∈ filledCols df, p.1 = e := by
  by_cases hmem : e ∈ (renamedCols df).map (fun p => p.1)
  · obtain ⟨p, hp, hp1⟩ := List.mem_map.mp hmem
    exact ⟨p, List.mem_append_left _ hp, hp1⟩
  · have hpred : (!((renamedCols df).map (fun p => p.1)).contains e) = true := by
      simp [hmem]
    refine ⟨(e, List.replicate df.nrows (Cell.str "")), List.mem_append_right _ ?_, rfl⟩
    exact List.mem_map.mpr ⟨e, List.mem_filter.mpr ⟨he, hpred⟩, rfl⟩

theorem normalize_columns_complete (df : DataFrame) {e : String} (he : e ∈ COLUMNS) :
    ∃ p ∈ (normalize_columns df).cols, p.1 = e := by
  obtain ⟨p, hp, hp1⟩ := filledCols_complete df he
  refine ⟨p, ?_, hp1⟩
  show p ∈ COLUMNS.flatMap (fun e2 => (filledCols df).filter (fun q => q.1 = e2))
  exact List.mem_flatMap.mpr ⟨e, he, List.mem_filter.mpr ⟨hp, by simp [hp1]⟩⟩

theorem normalize_columns_idem_aux (df : DataFrame) :
    normalize_columns (normalize_columns df) = normalize_columns df := by
  have hnames := normalize_cols_names df
  have hstrip : strippedCols (normalize_columns df) = (normalize_columns df).cols := by
    unfold strippedCols
    have h2 : ∀ p ∈ (normalize_columns df).cols, (pyStrip p.1, p.2) = p := by
      intro p hp
      rw [COLUMNS_strip_fixed p.1 (hnames p hp)]
    rw [List.map_congr_left h2]
    exact List.map_id _
  have hlookA : ∀ e ∈ COLUMNS,
      lookupLast (actualLower (normalize_columns df)) (pyLower e) = some e := by
    intro e he
    apply lookupLast_eq_some_of_unique
    · unfold actualLower
      rw [hstrip]
      obtain ⟨p, hp, hp1⟩ := normalize_columns_complete df he
      exact List.mem_map.mpr ⟨p, hp, by rw [hp1]⟩
    · intro w hw
      unfold actualLower at hw
      rw [hstrip] at hw
      obtain ⟨q, hq, heq⟩ := List.mem_map.mp hw
      have h1 : pyLower q.1 = pyLower e := congrArg Prod.fst heq
      have h2 : q.1 = w := congrArg Prod.snd heq
      rw [← h2]
      exact COLUMNS_lower_inj q.1 (hnames q hq) e he h1
  have hrename : renameMap (normalize_columns df) = COLUMNS.map (fun e => (e, e)) := by
    unfold renameMap
    apply filterMap_eq_map_of_all
    intro e he
    rw [hlookA e he]
    rfl
  have happend : appendedCols (normalize_columns df) = [] := by
    unfold appendedCols
    have h2 : COLUMNS.filter (fun e =>
        (lookupLast (actualLower (normalize_columns df)) (pyLower e)).isNone) = [] := by
      rw [List.filter_eq_nil_iff]
      intro e he
      rw [hlookA e he]
      simp
    rw [h2]
    rfl
  have hid : ∀ n ∈ COLUMNS, lookupLast (COLUMNS.map (fun e => (e, e))) n = some n := by
    intro n hn
    apply lookupLast_eq_some_of_unique
    · exact List.mem_map.mpr ⟨n, hn, rfl⟩
    · intro w hw
      obtain ⟨q, hq, heq⟩ := List.mem_map.mp hw
      have h1 : q = n := congrArg Prod.fst heq
      have h2 : q = w := congrArg Prod.snd heq
      rw [← h2, h1]
  have hrenamed : renamedCols (normalize_columns df) = (normalize_columns df).cols := by
    unfold renamedCols
    rw [hstrip, happend, List.append_nil, hrename]
    have h2 : ∀ p ∈ (normalize_columns df).cols,
        ((lookupLast (COLUMNS.map (fun e => (e, e))) p.1).getD p.1, p.2) = p := by
      intro p hp
      rw [hid p.1 (hnames p hp), Option.getD_some]
    rw [List.map_congr_left h2]
    exact List.map_id _
  have hfilled : filledCols (normalize_columns df) = (normalize_columns df).cols := by
    unfold filledCols
    rw [hrenamed]
    have h2 : COLUMNS.filter (fun e =>
        !((normalize_columns df).cols.map (fun p => p.1)).contains e) = [] := by
      rw [List.filter_eq_nil_iff]
      intro e he
      obtain ⟨p, hp, hp1⟩ := normalize_columns_complete df he
      have hm : e ∈ (normalize_columns df).cols.map (fun p => p.1) :=
        List.mem_map.mpr ⟨p, hp, hp1⟩
      simp [hm]
    rw [h2]
    simp
  have hgroup : COLUMNS.flatMap
      (fun e => (normalize_columns df).cols.filter (fun p => p.1 = e)) =
      (normalize_columns df).cols := by
    have h2 : ∀ e ∈ COLUMNS,
        (normalize_columns df).cols.filter (fun p => p.1 = e) =
          (filledCols df).filter (fun q => q.1 = e) := by
      intro e he
      show (COLUMNS.flatMap (fun e2 => (filledCols df).filter (fun q => q.1 = e2))).filter
          (fun p => p.1 = e) = _
      exact flatMap_filter_group COLUMNS COLUMNS_nodup _ (filter_names_filled df) he
    rw [flatMap_congr_left COLUMNS _ _ h2]
    rfl
  calc normalize_columns (normalize_columns df)
      = ⟨(normalize_columns df).nrows,
          COLUMNS.flatMap (fun e =>
            (filledCols (normalize_columns df)).filter (fun p => p.1 = e))⟩ := rfl
    _ = ⟨(normalize_columns df).nrows,
          COLUMNS.flatMap (fun e =>
            (normalize_columns df).cols.filter (fun p => p.1 = e))⟩ := by rw [hfilled]
    _ = ⟨(normalize_columns df).nrows, (normalize_columns df).cols⟩ := by rw [hgroup]
    _ = normalize_columns df := rfl

/-- C8: `normalize_columns` is a pure function — running it twice on the same
raw table gives identical results — and it is idempotent: applied to its own
output it returns that output unchanged. -/
theorem normalize_columns_idempotent (df : DataFrame) :
    normalize_columns df = normalize_columns df ∧
    normalize_columns (normalize_columns df) = normalize_columns df :=
  ⟨rfl, normalize_columns_idem_aux df⟩

